import Mathlib

/-!
Shallow embedding of the MPI histogram pipeline in
`prefect-slurm/scripts/get_counts.cpp` (duplicated in
`slurm/2_cpp/sampler_test.cpp`): a binary file of unsigned 32-bit values is
read at rank 0, scattered in contiguous equal slices to the workers, each
worker counts values into a 1024-bucket histogram, the histograms are
sum-reduced to rank 0, and the non-zero buckets are written as a one-line
sparse JSON object.

Machine integers are modelled as `Nat`/`Int`; the 32-bit `int` histogram
counters are `Int` (the spec assumes no counter overflow), and `uint32_t`
sample values are `Nat`.
-/

/-- `const uint32_t BITLEN = 10;` -/
def BITLEN : Nat := 10

/-- `const uint32_t MAXVAL = 1 << BITLEN;` -/
def MAXVAL : Nat := 1 <<< BITLEN

/-- One iteration of the counting loop
`for (auto v : local_data) { if (v < MAXVAL) local_hist[v]++; }`:
increment bucket `v` of the `int` counter vector when `v` is in range,
otherwise leave the histogram unchanged. -/
def bump (h : List Int) (v : Nat) : List Int :=
  if v < MAXVAL then h.set v (h.getD v 0 + 1) else h

/-- The local histogram a worker computes over its slice:
`std::vector<int> local_hist(MAXVAL, 0);` followed by the counting loop. -/
def localHist (s : List Nat) : List Int :=
  s.foldl bump (List.replicate MAXVAL 0)

/-- `uint32_t local_n = total_count / size;` -/
def local_n (total_count size : Nat) : Nat := total_count / size

/-- The contiguous slice `MPI_Scatter` sends to rank `i`: elements
`[i*ln, (i+1)*ln)` of the coordinator's data. -/
def rankSlice (data : List Nat) (ln i : Nat) : List Nat :=
  (data.drop (i * ln)).take ln

/-- All `W` scattered slices, in rank order. -/
def slices (data : List Nat) (W : Nat) : List (List Nat) :=
  (List.range W).map (fun i => rankSlice data (local_n data.length W) i)

/-- The `W` local histograms, in rank order. -/
def workerHists (data : List Nat) (W : Nat) : List (List Int) :=
  (slices data W).map localHist

/-- Element-wise sum of two histograms: one combine step of `MPI_Reduce`
with `MPI_SUM` on `MAXVAL` ints. -/
def addHist (a b : List Int) : List Int := List.zipWith (fun x y => x + y) a b

/-- `MPI_Reduce(local_hist.data(), global_hist.data(), MAXVAL, MPI_INT,
MPI_SUM, 0, ...)`: element-wise sum of all contributed histograms into
rank 0's zero-initialized buffer. -/
def reduceHists (hs : List (List Int)) : List Int :=
  hs.foldl addHist (List.replicate MAXVAL 0)

/-- The global histogram present at rank 0 after the reduction. -/
def globalHist (data : List Nat) (W : Nat) : List Int :=
  reduceHists (workerHists data W)

/-- One native-byte-order (little-endian on the x86/ARM targets) unsigned
32-bit word assembled from four bytes. -/
def word32 (b0 b1 b2 b3 : Nat) : Nat :=
  b0 + b1 * 256 + b2 * 65536 + b3 * 16777216

/-- The raw reinterpretation
`fin.read(reinterpret_cast<char*>(data.data()), ...)` applies to a byte
sequence: consume the bytes four at a time as native-byte-order unsigned
32-bit values; a trailing group of fewer than 4 bytes is never read. This
is the full-file reinterpretation; the number of words the program
actually reads is the `uint32_t`-narrowed `total_count` (see
`totalCountU32` and `readerModel`). -/
def readWords : List Nat → List Nat
  | b0 :: b1 :: b2 :: b3 :: rest => word32 b0 b1 b2 b3 :: readWords rest
  | _ => []

/-- `uint32_t total_count = fin.tellg() / sizeof(uint32_t);` on a
successfully opened file: the byte size divided by 4, narrowed to the low
32 bits by the store into the 32-bit `total_count`. -/
def totalCountU32 (bytes : List Nat) : Nat := bytes.length / 4 % 2 ^ 32

/-- The value `total_count` takes when `input.bin` cannot be opened: the
code performs no open check, `fin.tellg()` on the failed stream returns
`std::streampos(-1)`, `tellg() / sizeof(uint32_t)` is evaluated after the
usual arithmetic conversions as unsigned 64-bit `(2^64 - 1) / 4`, and the
assignment to the 32-bit `total_count` keeps the low 32 bits. -/
def failedOpenTotalCount : Nat := ((2 ^ 64 - 1) / 4) % 2 ^ 32

/-- The rank-0 reader, lines 19-27 of `get_counts.cpp`; the input `none`
models a file that cannot be opened. On success, `total_count` is the byte
size divided by 4 narrowed to 32 bits by the `uint32_t` store, and the
buffer holds the first `total_count` of the file's words (the read of
`total_count * sizeof(uint32_t)` bytes). On open failure the code reaches
the same statements with the stream in its failed state:
`total_count = failedOpenTotalCount`, and `fin.read` writes nothing, so
the buffer keeps the zero fill of `data.resize(total_count)`. -/
def readerModel (file : Option (List Nat)) : Nat × List Nat :=
  match file with
  | some bytes => (totalCountU32 bytes, (readWords bytes).take (totalCountU32 bytes))
  | none => (failedOpenTotalCount, List.replicate failedOpenTotalCount 0)

/-- The text `fout << "\"" << i << "\":" << global_hist[i];` appends for
bucket `i`: quoted decimal bucket index, colon, decimal count. -/
def entryString (hist : List Int) (i : Nat) : String :=
  "\"" ++ toString i ++ "\":" ++ toString (hist.getD i 0)

/-- One iteration of the output loop (lines 54-60): when bucket `i` has a
strictly positive count, append a comma unless this is the first emitted
entry, then append the entry; otherwise the state is unchanged. The `Bool`
component is the `first` flag. -/
def emitStep (hist : List Int) (st : String × Bool) (i : Nat) : String × Bool :=
  if 0 < hist.getD i 0 then
    (st.1 ++ (if st.2 then "" else ",") ++ entryString hist i, false)
  else st

/-- The emitter, lines 50-62: an opening brace, the loop over buckets
`0..MAXVAL-1`, a closing brace and a newline. The returned string is the
entire contents of `output.json`. -/
def emitJSON (hist : List Int) : String :=
  ((List.range MAXVAL).foldl (emitStep hist) ("\x7b", true)).1 ++ "\x7d\n"

/-- Concatenation that puts a comma before every element. -/
def joinCommaAll : List String → String
  | [] => ""
  | s :: rest => "," ++ s ++ joinCommaAll rest

/-- Comma-separated concatenation: no leading, trailing or doubled comma. -/
def joinComma : List String → String
  | [] => ""
  | s :: rest => s ++ joinCommaAll rest

/-- The buckets the emitter prints: exactly those whose (signed) counter is
strictly positive, in ascending order. -/
def emittedBuckets (hist : List Int) : List Nat :=
  (List.range MAXVAL).filter (fun i => decide (0 < hist.getD i 0))

/-- The entry strings the emitter prints, in ascending bucket order. -/
def emittedEntries (hist : List Int) : List String :=
  (emittedBuckets hist).map (entryString hist)

theorem MAXVAL_eq : MAXVAL = 1024 := rfl

theorem getD_replicate_zero (n b : Nat) :
    (List.replicate n (0 : Int)).getD b 0 = 0 := by
  simp [List.getD, List.getElem?_replicate]
  split <;> simp

theorem bump_length (h : List Int) (v : Nat) : (bump h v).length = h.length := by
  unfold bump; split <;> simp

theorem foldl_bump_length (s : List Nat) (h : List Int) :
    (s.foldl bump h).length = h.length := by
  induction s generalizing h with
  | nil => rfl
  | cons v s ih => simpa [List.foldl, bump_length] using ih (bump h v)

theorem bump_getD (h : List Int) (v b : Nat) (hh : h.length = MAXVAL) :
    (bump h v).getD b 0 =
      h.getD b 0 + (if b = v ∧ v < MAXVAL then 1 else 0) := by
  unfold bump
  by_cases hv : v < MAXVAL
  · simp only [if_pos hv]
    by_cases hb : b = v
    · subst hb
      have hlt : b < h.length := by omega
      simp [List.getD, List.getElem?_set, hlt, hv]
    · simp [List.getD, List.getElem?_set, Ne.symm hb, hb, hv]
  · simp [hv]

theorem foldl_bump_getD (s : List Nat) (h : List Int) (b : Nat)
    (hh : h.length = MAXVAL) :
    (s.foldl bump h).getD b 0 =
      h.getD b 0 + (if b < MAXVAL then (s.count b : Int) else 0) := by
  induction s generalizing h with
  | nil => simp
  | cons v s ih =>
    have hlen : (bump h v).length = MAXVAL := by rw [bump_length, hh]
    have := ih (bump h v) hlen
    simp only [List.foldl_cons, this, bump_getD h v b hh]
    by_cases hb : b < MAXVAL
    · simp only [if_pos hb, List.count_cons]
      by_cases hvb : v = b
      · subst hvb
        simp [hb]
        ring
      · simp [hvb, Ne.symm hvb]
    · have : ¬(b = v ∧ v < MAXVAL) := by
        rintro ⟨rfl, hlt⟩; exact hb hlt
      simp [hb, this]

theorem localHist_length (s : List Nat) : (localHist s).length = MAXVAL := by
  unfold localHist
  rw [foldl_bump_length, List.length_replicate]

theorem localHist_getD (s : List Nat) (b : Nat) :
    (localHist s).getD b 0 =
      if b < MAXVAL then (s.count b : Int) else 0 := by
  unfold localHist
  rw [foldl_bump_getD s _ b (by simp), getD_replicate_zero]
  ring

theorem addHist_length (a b : List Int) (ha : a.length = MAXVAL)
    (hb : b.length = MAXVAL) : (addHist a b).length = MAXVAL := by
  simp [addHist, ha, hb]

theorem addHist_getD (a b : List Int) (ha : a.length = MAXVAL)
    (hb : b.length = MAXVAL) (i : Nat) :
    (addHist a b).getD i 0 = a.getD i 0 + b.getD i 0 := by
  by_cases hi : i < MAXVAL
  · have h1 : i < a.length := by omega
    have h2 : i < b.length := by omega
    have h3 : i < (addHist a b).length := by rw [addHist_length a b ha hb]; omega
    rw [List.getD_eq_getElem _ _ h3, List.getD_eq_getElem _ _ h1,
      List.getD_eq_getElem _ _ h2]
    simp [addHist]
  · have h1 : ¬ i < a.length := by omega
    have h2 : ¬ i < b.length := by omega
    have h3 : ¬ i < (addHist a b).length := by
      rw [addHist_length a b ha hb]; omega
    rw [List.getD_eq_default _ _ (by omega), List.getD_eq_default _ _ (by omega),
      List.getD_eq_default _ _ (by omega)]
    simp

theorem foldl_addHist_length (hs : List (List Int)) (a : List Int)
    (ha : a.length = MAXVAL) (hhs : ∀ h ∈ hs, h.length = MAXVAL) :
    (hs.foldl addHist a).length = MAXVAL := by
  induction hs generalizing a with
  | nil => simpa using ha
  | cons x hs ih =>
    have hx : x.length = MAXVAL := hhs x (by simp)
    exact ih (addHist a x) (addHist_length a x ha hx) (fun h hm => hhs h (by simp [hm]))

theorem foldl_addHist_getD (hs : List (List Int)) (a : List Int) (b : Nat)
    (ha : a.length = MAXVAL) (hhs : ∀ h ∈ hs, h.length = MAXVAL) :
    (hs.foldl addHist a).getD b 0 =
      a.getD b 0 + (hs.map (fun h => h.getD b 0)).sum := by
  induction hs generalizing a with
  | nil => simp
  | cons x hs ih =>
    have hx : x.length = MAXVAL := hhs x (by simp)
    have := ih (addHist a x) (addHist_length a x ha hx)
      (fun h hm => hhs h (by simp [hm]))
    simp only [List.foldl_cons, this, addHist_getD a x ha hx, List.map_cons,
      List.sum_cons]
    ring

theorem reduceHists_getD (hs : List (List Int)) (b : Nat)
    (hhs : ∀ h ∈ hs, h.length = MAXVAL) :
    (reduceHists hs).getD b 0 = (hs.map (fun h => h.getD b 0)).sum := by
  unfold reduceHists
  rw [foldl_addHist_getD hs _ b (by simp) hhs, getD_replicate_zero]
  ring

theorem slices_flatten_aux (data : List Nat) (ln : Nat) :
    ∀ W, ((List.range W).map (fun i => rankSlice data ln i)).flatten
      = data.take (W * ln) := by
  intro W
  induction W with
  | zero => simp
  | succ W ih =>
    rw [List.range_succ, List.map_append, List.flatten_append, ih, Nat.succ_mul,
      List.take_add]
    simp [rankSlice]

theorem slices_flatten (data : List Nat) (W : Nat) :
    (slices data W).flatten = data.take (W * local_n data.length W) :=
  slices_flatten_aux data (local_n data.length W) W

theorem rankSlice_length_of_le (data : List Nat) (ln i : Nat)
    (h : i * ln + ln ≤ data.length) : (rankSlice data ln i).length = ln := by
  simp [rankSlice]
  omega

theorem distributed_le_length (data : List Nat) (W : Nat) :
    W * local_n data.length W ≤ data.length := by
  rw [local_n, mul_comm]
  exact Nat.div_mul_le_self _ _

theorem rankSlice_length (data : List Nat) (W i : Nat) (hi : i < W) :
    (rankSlice data (local_n data.length W) i).length
      = local_n data.length W := by
  apply rankSlice_length_of_le
  have h1 : i * local_n data.length W + local_n data.length W
      ≤ W * local_n data.length W := by
    calc i * local_n data.length W + local_n data.length W
        = (i + 1) * local_n data.length W := by ring
      _ ≤ W * local_n data.length W := Nat.mul_le_mul hi (le_refl _)
  exact le_trans h1 (distributed_le_length data W)

theorem workerHists_length (data : List Nat) (W : Nat) :
    ∀ h ∈ workerHists data W, h.length = MAXVAL := by
  intro h hm
  simp only [workerHists, List.mem_map] at hm
  obtain ⟨s, _, rfl⟩ := hm
  exact localHist_length s

theorem globalHist_getD (data : List Nat) (W b : Nat) :
    (globalHist data W).getD b 0 =
      if b < MAXVAL then
        ((data.take (W * local_n data.length W)).count b : Int)
      else 0 := by
  unfold globalHist
  rw [reduceHists_getD _ _ (workerHists_length data W)]
  unfold workerHists
  rw [List.map_map]
  by_cases hb : b < MAXVAL
  · simp only [if_pos hb]
    have hmap : ((slices data W).map ((fun h => h.getD b 0) ∘ localHist))
        = (slices data W).map (fun s : List Nat => ((s.count b : Nat) : Int)) := by
      apply List.map_congr_left
      intro s _
      show (localHist s).getD b 0 = ((s.count b : Nat) : Int)
      rw [localHist_getD, if_pos hb]
    rw [hmap,
      show ((slices data W).map fun s : List Nat => ((s.count b : Nat) : Int))
          = ((slices data W).map (fun s : List Nat => s.count b)).map
              (fun n : Nat => (n : Int)) from by rw [List.map_map]; rfl,
      ← Nat.cast_list_sum]
    congr 1
    rw [show ((slices data W).map fun s : List Nat => s.count b)
          = (slices data W).map (List.count b) from rfl,
      ← List.count_flatten, slices_flatten]
  · simp only [if_neg hb]
    apply List.sum_eq_zero
    intro x hx
    simp only [List.mem_map, Function.comp] at hx
    obtain ⟨s, _, rfl⟩ := hx
    show (localHist s).getD b 0 = 0
    rw [localHist_getD, if_neg hb]

theorem readWords_length : ∀ bytes : List Nat,
    (readWords bytes).length = bytes.length / 4
  | [] => by simp [readWords]
  | [_] => by simp [readWords]
  | [_, _] => by simp [readWords]
  | [_, _, _] => by simp [readWords]
  | b0 :: b1 :: b2 :: b3 :: rest => by
    have ih := readWords_length rest
    simp only [readWords, List.length_cons, ih]
    omega

theorem readWords_take : ∀ bytes : List Nat,
    readWords (bytes.take (4 * (bytes.length / 4))) = readWords bytes
  | [] => rfl
  | [_] => by simp [readWords]
  | [_, _] => by simp [readWords]
  | [_, _, _] => by simp [readWords]
  | b0 :: b1 :: b2 :: b3 :: rest => by
    have ih := readWords_take rest
    have hq : (b0 :: b1 :: b2 :: b3 :: rest).length / 4 = rest.length / 4 + 1 := by
      simp only [List.length_cons]
      omega
    rw [hq, Nat.mul_add, Nat.mul_one]
    have htake : (b0 :: b1 :: b2 :: b3 :: rest).take (4 * (rest.length / 4) + 4)
        = b0 :: b1 :: b2 :: b3 :: rest.take (4 * (rest.length / 4)) := rfl
    rw [htake]
    show word32 b0 b1 b2 b3 :: readWords (rest.take (4 * (rest.length / 4)))
        = word32 b0 b1 b2 b3 :: readWords rest
    rw [ih]

theorem readWords_lt : ∀ bytes : List Nat, (∀ b ∈ bytes, b < 256) →
    ∀ w ∈ readWords bytes, w < 2 ^ 32
  | [] => by simp [readWords]
  | [_] => by simp [readWords]
  | [_, _] => by simp [readWords]
  | [_, _, _] => by simp [readWords]
  | b0 :: b1 :: b2 :: b3 :: rest => by
    intro hb w hw
    simp only [readWords, List.mem_cons] at hw
    rcases hw with rfl | hw
    · have h0 : b0 < 256 := hb _ (by simp)
      have h1 : b1 < 256 := hb _ (by simp)
      have h2 : b2 < 256 := hb _ (by simp)
      have h3 : b3 < 256 := hb _ (by simp)
      unfold word32
      have : (2 : Nat) ^ 32 = 4294967296 := by norm_num
      omega
    · exact readWords_lt rest (fun b hbm => hb b (by simp [hbm])) w hw

theorem emit_foldl_false (hist : List Int) (idxs : List Nat) :
    ∀ acc : String,
      idxs.foldl (emitStep hist) (acc, false)
        = (acc ++ joinCommaAll
            ((idxs.filter (fun i => decide (0 < hist.getD i 0))).map
              (entryString hist)), false) := by
  induction idxs with
  | nil => intro acc; simp [joinCommaAll, String.append_empty]
  | cons i rest ih =>
    intro acc
    by_cases hi : 0 < hist.getD i 0
    · have hi2 : 0 < hist[i]?.getD 0 := by
        rw [← List.getD_eq_getElem?_getD]; exact hi
      have hstep : emitStep hist (acc, false) i
          = (acc ++ "," ++ entryString hist i, false) := by
        simp [emitStep, hi2]
      rw [List.foldl_cons, hstep, ih]
      simp [List.filter_cons, hi2, joinCommaAll, String.append_assoc]
    · have hi2 : ¬ 0 < hist[i]?.getD 0 := by
        rw [← List.getD_eq_getElem?_getD]; exact hi
      have hstep : emitStep hist (acc, false) i = (acc, false) := by
        simp [emitStep, hi2]
      rw [List.foldl_cons, hstep, ih]
      simp [List.filter_cons, hi2]

theorem emit_foldl_true (hist : List Int) (idxs : List Nat) :
    ∀ acc : String,
      idxs.foldl (emitStep hist) (acc, true)
        = (acc ++ joinComma
            ((idxs.filter (fun i => decide (0 < hist.getD i 0))).map
              (entryString hist)),
           ((idxs.filter (fun i => decide (0 < hist.getD i 0))).map
              (entryString hist)).isEmpty) := by
  induction idxs with
  | nil => intro acc; simp [joinComma, String.append_empty]
  | cons i rest ih =>
    intro acc
    by_cases hi : 0 < hist.getD i 0
    · have hi2 : 0 < hist[i]?.getD 0 := by
        rw [← List.getD_eq_getElem?_getD]; exact hi
      have hstep : emitStep hist (acc, true) i
          = (acc ++ entryString hist i, false) := by
        simp [emitStep, hi2, String.append_empty]
      rw [List.foldl_cons, hstep, emit_foldl_false hist rest]
      simp [List.filter_cons, hi2, joinComma, joinCommaAll, String.append_assoc,
        String.append_empty]
    · have hi2 : ¬ 0 < hist[i]?.getD 0 := by
        rw [← List.getD_eq_getElem?_getD]; exact hi
      have hstep : emitStep hist (acc, true) i = (acc, true) := by
        simp [emitStep, hi2]
      rw [List.foldl_cons, hstep, ih]
      simp [List.filter_cons, hi2]

theorem emitJSON_eq (hist : List Int) :
    emitJSON hist = "\x7b" ++ joinComma (emittedEntries hist) ++ "\x7d\n" := by
  unfold emitJSON emittedEntries emittedBuckets
  rw [emit_foldl_true]

theorem emitJSON_of_nonpos (hist : List Int)
    (h : ∀ i, i < MAXVAL → hist.getD i 0 ≤ 0) :
    emitJSON hist = "\x7b\x7d\n" := by
  have hb : emittedBuckets hist = [] := by
    rw [emittedBuckets, List.filter_eq_nil_iff]
    intro a ha
    simp only [List.mem_range] at ha
    simpa using h a ha
  rw [emitJSON_eq, emittedEntries, hb]
  rfl

theorem addHist_right_comm (a x y : List Int) :
    addHist (addHist a x) y = addHist (addHist a y) x := by
  unfold addHist
  induction a generalizing x y with
  | nil => simp
  | cons h a ih =>
    cases x with
    | nil => simp
    | cons hx x =>
      cases y with
      | nil => simp
      | cons hy y =>
        simp only [List.zipWith_cons_cons]
        rw [ih x y]
        congr 1
        ring

theorem reduceHists_perm (hs hs2 : List (List Int)) (h : hs.Perm hs2) :
    reduceHists hs = reduceHists hs2 := by
  unfold reduceHists
  exact h.foldl_eq' (fun x _ y _ z => addHist_right_comm z x y) _

theorem sum_map_add (l : List Nat) (f g : Nat → Int) :
    (l.map (fun b => f b + g b)).sum = (l.map f).sum + (l.map g).sum := by
  induction l with
  | nil => simp
  | cons x l ih =>
    simp only [List.map_cons, List.sum_cons, ih]
    ring

theorem sum_map_ite_range (M x : Nat) :
    ((List.range M).map (fun b => if x = b then (1 : Int) else 0)).sum
      = if x < M then 1 else 0 := by
  induction M with
  | zero => simp
  | succ M ih =>
    rw [List.range_succ, List.map_append, List.sum_append, ih]
    by_cases hx : x = M
    · subst hx
      simp [Nat.lt_irrefl, Nat.lt_succ_self]
    · by_cases h2 : x < M
      · simp [hx, h2, Nat.lt_succ_of_lt h2]
      · have h3 : ¬ x < M + 1 := by omega
        simp [hx, h2, h3]

theorem sum_range_count (s : List Nat) (M : Nat) :
    ((List.range M).map (fun b => (s.count b : Int))).sum
      = ((s.filter (fun v => decide (v < M))).length : Int) := by
  induction s with
  | nil => simp
  | cons x s ih =>
    have hmap : (List.range M).map (fun b => (((x :: s).count b : Nat) : Int))
        = (List.range M).map
            (fun b => ((s.count b : Nat) : Int) + if x = b then (1 : Int) else 0) := by
      apply List.map_congr_left
      intro b _
      rw [List.count_cons]
      by_cases hxb : x = b
      · simp [hxb]
      · simp [hxb, Ne.symm hxb]
    rw [hmap, sum_map_add, sum_map_ite_range, ih, List.filter_cons]
    by_cases hx : x < M
    · simp [hx]
    · simp [hx]

theorem globalHist_length (data : List Nat) (W : Nat) :
    (globalHist data W).length = MAXVAL := by
  unfold globalHist reduceHists
  exact foldl_addHist_length _ _ (by simp) (workerHists_length data W)

theorem globalHist_eq_map (data : List Nat) (W : Nat) :
    globalHist data W
      = (List.range MAXVAL).map
          (fun b => ((data.take (W * local_n data.length W)).count b : Int)) := by
  apply List.ext_getElem
  · simp [globalHist_length]
  · intro i h1 h2
    have hi : i < MAXVAL := by
      have := globalHist_length data W
      omega
    rw [← List.getD_eq_getElem (globalHist data W) 0 h1, globalHist_getD,
      if_pos hi]
    simp

theorem globalHist_sum (data : List Nat) (W : Nat) :
    (globalHist data W).sum
      = (((data.take (W * local_n data.length W)).filter
          (fun v => decide (v < MAXVAL))).length : Int) := by
  rw [globalHist_eq_map, sum_range_count]

theorem take_all_of_dvd (data : List Nat) (W : Nat) (hdvd : W ∣ data.length) :
    data.take (W * local_n data.length W) = data := by
  rw [local_n, Nat.mul_div_cancel' hdvd, List.take_length]

theorem getD_map_zeroed (hist : List Int) (i : Nat) :
    (hist.map (fun c => if 0 < c then c else 0)).getD i 0
      = if 0 < hist.getD i 0 then hist.getD i 0 else 0 := by
  by_cases hi : i < hist.length
  · rw [List.getD_eq_getElem _ _ (by simpa using hi),
      List.getD_eq_getElem _ _ hi, List.getElem_map]
  · rw [List.getD_eq_default _ _ (by simpa using hi),
      List.getD_eq_default _ _ (by omega)]
    simp

/-- C1: for every input sequence and every worker count that divides its
length, bucket `b` of the reduced global histogram equals the sum over the
workers of bucket `b` of their local histograms, and equals bucket `b` of
histogramming the whole input directly (exactness of the `MPI_SUM`
reduction over the contiguous equal slices). -/
theorem C1_reduction_exact (data : List Nat) (W : Nat) (hW : 0 < W)
    (hdvd : W ∣ data.length) (b : Nat) :
    (globalHist data W).getD b 0
        = ((workerHists data W).map (fun h => h.getD b 0)).sum
    ∧ (globalHist data W).getD b 0 = (localHist data).getD b 0 := by
  constructor
  · exact reduceHists_getD _ _ (workerHists_length data W)
  · rw [globalHist_getD, take_all_of_dvd data W hdvd, localHist_getD]

/-- Witness for C1 at `S = [3, 7, 3, 2000]`, `W = 2`, `b = 3`. -/
theorem C1_reduction_exact_witness :
    (globalHist [3, 7, 3, 2000] 2).getD 3 0
        = ((workerHists [3, 7, 3, 2000] 2).map (fun h => h.getD 3 0)).sum
    ∧ (globalHist [3, 7, 3, 2000] 2).getD 3 0
        = (localHist [3, 7, 3, 2000]).getD 3 0 :=
  C1_reduction_exact [3, 7, 3, 2000] 2 (by decide) (by decide) 3

/-- C2: for every input sequence and every worker count that divides its
length, the counts in the emitted global histogram sum to the number of
input elements that are strictly below `MAXVAL = 1024`; larger elements
contribute nothing. -/
theorem C2_histogram_sum (data : List Nat) (W : Nat) (hW : 0 < W)
    (hdvd : W ∣ data.length) :
    (globalHist data W).sum
      = ((data.filter (fun v => decide (v < MAXVAL))).length : Int) := by
  rw [globalHist_sum, take_all_of_dvd data W hdvd]

/-- Witness for C2 at `S = [0, 1, 1023, 1024, 5000, 1]`, `W = 3`. -/
theorem C2_histogram_sum_witness :
    (globalHist [0, 1, 1023, 1024, 5000, 1] 3).sum
      = ((([0, 1, 1023, 1024, 5000, 1] : List Nat).filter
          (fun v => decide (v < MAXVAL))).length : Int) :=
  C2_histogram_sum [0, 1, 1023, 1024, 5000, 1] 3 (by decide) (by decide)

/-- C3: the local histogrammer returns an array of length exactly
`MAXVAL = 1024`; for every bucket `b < 1024` the entry is the number of
slice elements equal to `b`; a sample `≥ 1024` (such as 1024 itself) is
discarded, changing nothing; a sample equal to 1023 is counted in
bucket 1023. -/
theorem C3_local_histogrammer (s : List Nat) :
    (localHist s).length = MAXVAL
    ∧ (∀ b, b < MAXVAL → (localHist s).getD b 0 = (s.count b : Int))
    ∧ (∀ v, MAXVAL ≤ v → localHist (s ++ [v]) = localHist s)
    ∧ (localHist (s ++ [1023])).getD 1023 0
        = (localHist s).getD 1023 0 + 1 := by
  refine ⟨localHist_length s, ?_, ?_, ?_⟩
  · intro b hb
    rw [localHist_getD, if_pos hb]
  · intro v hv
    unfold localHist
    rw [List.foldl_append]
    show bump _ v = _
    unfold bump
    rw [if_neg (by omega)]
  · unfold localHist
    rw [List.foldl_append]
    show (bump (List.foldl bump (List.replicate MAXVAL 0) s) 1023).getD 1023 0 = _
    rw [bump_getD _ _ _ (by rw [foldl_bump_length]; simp)]
    norm_num [MAXVAL_eq]

/-- Witness for C3 at the slice `[7, 1023]`, bucket 7, out-of-range
sample 1024. -/
theorem C3_local_histogrammer_witness :
    (localHist [7, 1023]).getD 7 0 = (([7, 1023] : List Nat).count 7 : Int)
    ∧ localHist ([7, 1023] ++ [1024]) = localHist [7, 1023] :=
  ⟨(C3_local_histogrammer [7, 1023]).2.1 7 (by decide),
   (C3_local_histogrammer [7, 1023]).2.2.1 1024 (by decide)⟩

/-- C4: for a global histogram whose counters (below `MAXVAL`) are
non-negative, the emitted file contents are one object in braces holding
exactly the buckets with non-zero count, each as a `"index":count` entry
with decimal strings, in ascending bucket order, comma-separated with no
trailing comma, followed by a newline; the all-zero histogram (the `N = 0`
case included) yields the two-character object and the newline. -/
theorem C4_sparse_json (hist : List Int)
    (hnn : ∀ i, i < MAXVAL → 0 ≤ hist.getD i 0) :
    emitJSON hist
        = "\x7b" ++ joinComma
            (((List.range MAXVAL).filter
                (fun i => decide (hist.getD i 0 ≠ 0))).map (entryString hist))
          ++ "\x7d\n"
    ∧ emitJSON (List.replicate MAXVAL 0) = "\x7b\x7d\n" := by
  constructor
  · have hf : (List.range MAXVAL).filter (fun i => decide (0 < hist.getD i 0))
        = (List.range MAXVAL).filter (fun i => decide (hist.getD i 0 ≠ 0)) := by
      apply List.filter_congr
      intro i hi
      simp only [List.mem_range] at hi
      have := hnn i hi
      simp only [decide_eq_decide]
      omega
    rw [emitJSON_eq]
    unfold emittedEntries emittedBuckets
    rw [hf]
  · exact emitJSON_of_nonpos _ (fun i _ => by rw [getD_replicate_zero])

set_option maxRecDepth 4096 in
/-- Witness for C4 at the histogram whose buckets 1 and 2 hold 2 and 1. -/
theorem C4_sparse_json_witness :
    emitJSON [0, 2, 1]
        = "\x7b" ++ joinComma
            (((List.range MAXVAL).filter
                (fun i => decide (([0, 2, 1] : List Int).getD i 0 ≠ 0))).map
              (entryString [0, 2, 1]))
          ++ "\x7d\n"
    ∧ emitJSON (List.replicate MAXVAL 0) = "\x7b\x7d\n" :=
  C4_sparse_json [0, 2, 1] (by decide)

/-- C5: the distributor computes `local_n` as the integer quotient
`N / W`; each of the `W` rank-ordered slices has length `local_n`; the
slices are contiguous and non-overlapping, concatenating to the first
`W * local_n` elements; the trailing `N mod W` elements reach no worker
(for `N = 10`, `W = 3` exactly 9 elements are distributed). -/
theorem C5_distributor (data : List Nat) (W : Nat) :
    local_n data.length W = data.length / W
    ∧ (∀ i, i < W → (rankSlice data (local_n data.length W) i).length
        = local_n data.length W)
    ∧ (slices data W).flatten = data.take (W * local_n data.length W)
    ∧ (slices data W).flatten.length + data.length % W = data.length := by
  refine ⟨rfl, fun i hi => rankSlice_length data W i hi, slices_flatten data W, ?_⟩
  have h2 : W * (data.length / W) ≤ data.length := by
    have := distributed_le_length data W
    rwa [local_n] at this
  rw [slices_flatten, List.length_take, local_n, min_eq_left h2,
    Nat.div_add_mod]

/-- Witness for C5 at `N = 10`, `W = 3`: slice 1 has length 3, and the
distributed element count plus the dropped tail (1 element) is 10. -/
theorem C5_distributor_witness :
    (rankSlice (List.range 10) (local_n (List.range 10).length 3) 1).length
        = local_n (List.range 10).length 3
    ∧ (slices (List.range 10) 3).flatten.length + (List.range 10).length % 3
        = (List.range 10).length :=
  ⟨(C5_distributor (List.range 10) 3).2.1 1 (by decide),
   (C5_distributor (List.range 10) 3).2.2.2⟩

/-- Counterexample to C6 as stated: a readable file of exactly 2^34 bytes.
`file_byte_size / 4 = 2^32`, but the `uint32_t` store narrows
`total_count` to `2^32 mod 2^32 = 0`, so the reader reads 0 words, not
`file_byte_size / 4` of them. -/
theorem C6_count_narrowing_counterexample :
    (readerModel (some (List.replicate (2 ^ 34) (0 : Nat)))).1 = 0
    ∧ (List.replicate (2 ^ 34) (0 : Nat)).length / 4 = 2 ^ 32
    ∧ (readerModel (some (List.replicate (2 ^ 34) (0 : Nat)))).1
        ≠ (List.replicate (2 ^ 34) (0 : Nat)).length / 4 := by
  have hlen : (List.replicate (2 ^ 34) (0 : Nat)).length = 2 ^ 34 :=
    List.length_replicate _ _
  have ha : (readerModel (some (List.replicate (2 ^ 34) (0 : Nat)))).1 = 0 := by
    show totalCountU32 (List.replicate (2 ^ 34) (0 : Nat)) = 0
    rw [totalCountU32, hlen]
    norm_num
  have hb : (List.replicate (2 ^ 34) (0 : Nat)).length / 4 = 2 ^ 32 := by
    rw [hlen]
    norm_num
  exact ⟨ha, hb, by rw [ha, hb]; norm_num⟩

/-- C6 (amended): for every readable file smaller than 2^34 bytes — so the
element count fits the 32-bit `total_count` — the reader derives the
element count as the byte size divided by 4 (integer division) and reads
exactly that many values; a trailing partial element is silently ignored
(taking only the first `4 * (size / 4)` bytes reads the same words), and,
bytes being below 256, every value read is an unsigned 32-bit value. On
larger files the count is the `uint32_t`-narrowed `(size / 4) mod 2^32`
(see `C6_count_narrowing_counterexample`). -/
theorem C6_binary_reader (bytes : List Nat) (hsize : bytes.length < 2 ^ 34)
    (hbytes : ∀ b ∈ bytes, b < 256) :
    (readerModel (some bytes)).1 = bytes.length / 4
    ∧ (readerModel (some bytes)).2 = readWords bytes
    ∧ (readerModel (some bytes)).2.length = bytes.length / 4
    ∧ readWords (bytes.take (4 * (bytes.length / 4))) = readWords bytes
    ∧ ∀ w ∈ (readerModel (some bytes)).2, w < 2 ^ 32 := by
  have h34 : (2 : Nat) ^ 34 = 17179869184 := by norm_num
  have h32 : (2 : Nat) ^ 32 = 4294967296 := by norm_num
  have hfit : bytes.length / 4 < 2 ^ 32 := by omega
  have hcount : totalCountU32 bytes = bytes.length / 4 := by
    rw [totalCountU32]
    exact Nat.mod_eq_of_lt hfit
  have hdata : (readerModel (some bytes)).2 = readWords bytes := by
    show (readWords bytes).take (totalCountU32 bytes) = readWords bytes
    rw [hcount]
    apply List.take_of_length_le
    rw [readWords_length]
  refine ⟨hcount, hdata, ?_, readWords_take bytes, ?_⟩
  · rw [hdata, readWords_length]
  · rw [hdata]
    exact readWords_lt bytes hbytes

/-- Witness for C6 at a 5-byte file: one word is read, the 5th byte is
ignored. -/
theorem C6_binary_reader_witness :
    (readerModel (some [1, 0, 0, 0, 9])).1 = ([1, 0, 0, 0, 9] : List Nat).length / 4
    ∧ (readerModel (some [1, 0, 0, 0, 9])).2 = readWords [1, 0, 0, 0, 9]
    ∧ (readerModel (some [1, 0, 0, 0, 9])).2.length
        = ([1, 0, 0, 0, 9] : List Nat).length / 4
    ∧ readWords (([1, 0, 0, 0, 9] : List Nat).take
        (4 * (([1, 0, 0, 0, 9] : List Nat).length / 4)))
      = readWords [1, 0, 0, 0, 9]
    ∧ ∀ w ∈ (readerModel (some [1, 0, 0, 0, 9])).2, w < 2 ^ 32 :=
  C6_binary_reader [1, 0, 0, 0, 9] (by decide) (by decide)

/-- C7: the reader contains no open check at all. On an unopenable file it
does not fail or report anything: `tellg()` returns -1, `total_count`
becomes 4294967295, and the failed `read` leaves the `resize` zero fill in
place, so the coordinator would go on to process 4294967295 zeros as data
(where the huge `resize` does not already die on allocation) — the
condition is never detected or reported as an error. -/
theorem C7_no_open_error_check :
    readerModel none = (4294967295, List.replicate 4294967295 0)
    ∧ failedOpenTotalCount = 4294967295 := by
  have h : failedOpenTotalCount = 4294967295 := by decide
  constructor
  · show (failedOpenTotalCount, List.replicate failedOpenTotalCount 0) = _
    rw [h]
  · exact h

/-- C8: determinism of the output bytes. A run is modelled as reducing the
worker histograms in whatever order the reduction combines them; any two
runs on the same input file contents and worker count emit byte-identical
`output.json` contents (integer addition is associative and commutative,
and everything else is a pure function of the input). -/
theorem C8_deterministic_output (bytes : List Nat) (W : Nat)
    (hs hs2 : List (List Int))
    (h : hs.Perm (workerHists (readWords bytes) W))
    (h2 : hs2.Perm (workerHists (readWords bytes) W)) :
    emitJSON (reduceHists hs) = emitJSON (reduceHists hs2) := by
  rw [reduceHists_perm hs _ h, reduceHists_perm hs2 _ h2]

/-- Witness for C8: an 8-byte file holding the words 1 and 2, `W = 2`,
one run combining the worker histograms in reverse order. -/
theorem C8_deterministic_output_witness :
    emitJSON (reduceHists
        ((workerHists (readWords [1, 0, 0, 0, 2, 0, 0, 0]) 2).reverse))
      = emitJSON (reduceHists (workerHists (readWords [1, 0, 0, 0, 2, 0, 0, 0]) 2)) :=
  C8_deterministic_output [1, 0, 0, 0, 2, 0, 0, 0] 2 _ _
    (List.reverse_perm _) (List.Perm.refl _)

/-- C9: the emitter prints bucket `b` exactly when its signed counter is
strictly positive; replacing every zero-or-negative counter by 0 (an
untouched bucket) changes nothing about the output; and the printed
entries are exactly the strictly positive buckets in ascending order. -/
theorem C9_positive_buckets_only (hist : List Int) :
    (∀ b, b ∈ emittedBuckets hist ↔ b < MAXVAL ∧ 0 < hist.getD b 0)
    ∧ emitJSON hist = emitJSON (hist.map (fun c => if 0 < c then c else 0))
    ∧ emitJSON hist = "\x7b" ++ joinComma (emittedEntries hist) ++ "\x7d\n" := by
  refine ⟨?_, ?_, emitJSON_eq hist⟩
  · intro b
    simp [emittedBuckets, List.mem_filter, List.mem_range]
  · have hent : emittedEntries (hist.map (fun c => if 0 < c then c else 0))
        = emittedEntries hist := by
      unfold emittedEntries emittedBuckets
      have hfil : (List.range MAXVAL).filter
            (fun i => decide
              (0 < (hist.map (fun c => if 0 < c then c else 0)).getD i 0))
          = (List.range MAXVAL).filter (fun i => decide (0 < hist.getD i 0)) := by
        apply List.filter_congr
        intro i _
        rw [getD_map_zeroed]
        simp only [decide_eq_decide]
        split <;> rename_i hsp
        · exact Iff.rfl
        · have hsp2 : hist.getD i 0 ≤ 0 := by omega
          simp only [List.getD_eq_getElem?_getD] at hsp2
          simp [hsp2]
      rw [hfil]
      apply List.map_congr_left
      intro i hi
      rw [List.mem_filter] at hi
      have hpos : 0 < hist.getD i 0 := by simpa using hi.2
      unfold entryString
      rw [getD_map_zeroed, if_pos hpos]
    rw [emitJSON_eq, emitJSON_eq, hent]

/-- C10: when there are fewer elements than workers, integer division
makes `local_n = 0`, every slice is empty, no element is distributed, and
the emitted output is exactly the empty object followed by a newline. -/
theorem C10_small_input (data : List Nat) (W : Nat) (h : data.length < W) :
    local_n data.length W = 0
    ∧ (∀ i, rankSlice data (local_n data.length W) i = [])
    ∧ emitJSON (globalHist data W) = "\x7b\x7d\n" := by
  have h0 : local_n data.length W = 0 := by
    rw [local_n]
    exact Nat.div_eq_of_lt h
  refine ⟨h0, ?_, ?_⟩
  · intro i
    rw [h0]
    simp [rankSlice]
  · apply emitJSON_of_nonpos
    intro i hi
    rw [globalHist_getD, if_pos hi, h0]
    simp

/-- Witness for C10 at `S = [5]`, `W = 2`. -/
theorem C10_small_input_witness :
    local_n ([5] : List Nat).length 2 = 0
    ∧ (∀ i, rankSlice [5] (local_n ([5] : List Nat).length 2) i = [])
    ∧ emitJSON (globalHist [5] 2) = "\x7b\x7d\n" :=
  C10_small_input [5] 2 (by decide)
